import Mathlib

/-!
Shallow embedding of `state_machine/state_machine.py` from the
`django_statemachine` repository, together with proofs about the claims of
its specification.

Modelling conventions:
* Python state codes are an arbitrary type `α` with decidable equality
  ("any Python object except None"); transition symbols are a type `σ`.
* A value appearing in the `transitions` configuration is either a bare code
  or a `State` instance; we model this with the sum-like type `SC`.
* Python dictionaries are modelled as association lists in insertion order
  (Python dicts preserve insertion order); Python sets are lists deduplicated
  by the relevant equality.
* Python `==` between `State`s and/or bare codes (`State.__eq__`, `__ne__`,
  and the reflected call a bare code delegates to) is `SC.pyEq`.
* `hash` is an arbitrary function `α → Nat` standing for the Python `hash`.
* Exceptions are modelled with `Except`; an uncaught exception is an
  `.error` result.
-/

namespace DjangoSM

/-- `State` from `state_machine.py`: a code plus optional metadata
(`label`, `is_initial`, `is_terminal`), all defaulting to `None`. -/
structure State (α : Type) where
  code : α
  label : Option String := none
  is_initial : Option Bool := none
  is_terminal : Option Bool := none
deriving Repr, DecidableEq

/-- A value occurring in a `transitions` configuration: a bare state code or
an explicit `State` instance ("`<state>: <state_code> | <State instance>`"). -/
inductive SC (α : Type) where
  | code (c : α)
  | state (s : State α)
deriving Repr, DecidableEq

namespace SC

/-- The underlying code of a spec value. -/
def theCode : SC α → α
  | .code c => c
  | .state s => s.code

/-- Python `==` between two spec-level values.  `State.__eq__` compares codes
when the other side is a `State` and compares `self.code == other` otherwise;
a bare code compared against a `State` falls back to the reflected
`State.__eq__` call, so every mixed comparison reduces to code equality. -/
def pyEq [DecidableEq α] : SC α → SC α → Bool
  | .state s, .state t => decide (s.code = t.code)
  | .state s, .code c => decide (s.code = c)
  | .code c, .state s => decide (s.code = c)
  | .code c, .code d => decide (c = d)

/-- Python `hash` of a spec value: `State.__hash__` returns `hash(self.code)`,
a bare code hashes as itself; `h` stands for the Python `hash` on codes. -/
def pyHash (h : α → Nat) : SC α → Nat
  | .code c => h c
  | .state s => h s.code

/-- Python `isinstance(v, State)` on a spec-level value. -/
def isStateObj : SC α → Bool
  | .state _ => true
  | .code _ => false

end SC

/-- Error class raised by `State.merge_data`: a `ValueError` for inequal
states, or `ImproperlyConfigured` naming the conflicting attribute. -/
inductive MergeErr where
  | valueError
  | improperlyConfigured (attr : String)
deriving Repr, DecidableEq

/-- One iteration of the attribute loop inside `State.merge_data`:
`if getattr(self, attr) != getattr(other, attr) and getattr(other, attr) is
not None:` either adopt the value of `other` (when the value of `self` is `None`) or raise
`ImproperlyConfigured`. Returns the (possibly updated) attribute of `self`. -/
def mergeAttr [DecidableEq β] (a b : Option β) (attr : String) :
    Except MergeErr (Option β) :=
  if a ≠ b ∧ b ≠ none then
    if a = none then .ok b else .error (.improperlyConfigured attr)
  else .ok a

namespace State

/-- `State.merge_data`: requires equal states (`self != other` raises
`ValueError`; `State` equality is code equality), then folds the attributes
`label`, `is_initial`, `is_terminal` in that order, mutating `self`.
We return the mutated `self` in place of the Python in-place update. -/
def merge_data [DecidableEq α] (s other : State α) :
    Except MergeErr (State α) :=
  if s.code ≠ other.code then .error .valueError
  else
    match mergeAttr s.label other.label "label" with
    | .error e => .error e
    | .ok lab =>
      match mergeAttr s.is_initial other.is_initial "is_initial" with
      | .error e => .error e
      | .ok ini =>
        match mergeAttr s.is_terminal other.is_terminal "is_terminal" with
        | .error e => .error e
        | .ok ter =>
          .ok { s with label := lab, is_initial := ini, is_terminal := ter }

end State

/-- The `transitions` configuration: a dict from source state (code or
`State`) to a dict from symbol to destination (code or `State`). -/
abbrev Spec (α σ : Type) := List (SC α × List (σ × SC α))

/-- All destination values of a spec, in iteration order
(`[val for _, transitions in cls.transitions.items() for val in
transitions.values()]`). -/
def right_side (t : Spec α σ) : List (SC α) :=
  t.flatMap (fun p => p.2.map Prod.snd)

/-- `list(cls.transitions.keys())`. -/
def specKeys (t : Spec α σ) : List (SC α) :=
  t.map Prod.fst

/-- Wrapping step in `states`: `if not isinstance(state, State): state =
State(state)`. -/
def toState : SC α → State α
  | .state s => s
  | .code c => { code := c }

/-- The list the `states` classproperty iterates over:
`states = right_side + list(cls.transitions.keys())`, each wrapped. -/
def collectStates (t : Spec α σ) : List (State α) :=
  (right_side t ++ specKeys t).map toState

/-- `cls._states`: the mapping of state codes to `State` instances, as an
association list in insertion order. -/
abbrev Table (α : Type) := List (α × State α)

/-- Dict lookup `tbl[c]` by a bare code (dict keys are codes). -/
def lookupTable [DecidableEq α] (tbl : Table α) (c : α) : Option (State α) :=
  (tbl.find? (fun p => p.1 = c)).map Prod.snd

/-- One iteration of the accumulation loop in `states`:
`if state.code not in cls._states: cls._states[state.code] = state
else: cls._states[state.code].merge_data(state)`. -/
def insertState [DecidableEq α] (tbl : Table α) (st : State α) :
    Except MergeErr (Table α) :=
  match tbl with
  | [] => .ok [(st.code, st)]
  | (c, s0) :: rest =>
    if c = st.code then
      match s0.merge_data st with
      | .error e => .error e
      | .ok m => .ok ((c, m) :: rest)
    else
      match insertState rest st with
      | .error e => .error e
      | .ok r => .ok ((c, s0) :: r)

/-- The `for state in states:` accumulation loop of the `states`
classproperty, threading `cls._states` through `insertState`. -/
def insertAll [DecidableEq α] (tbl : Table α) :
    List (State α) → Except MergeErr (Table α)
  | [] => .ok tbl
  | st :: rest =>
    match insertState tbl st with
    | .error e => .error e
    | .ok tbl' => insertAll tbl' rest

/-- The accumulation phase of the `states` classproperty. -/
def mergeStates [DecidableEq α] (t : Spec α σ) : Except MergeErr (Table α) :=
  insertAll [] (collectStates t)

/-- Python truthiness of an optional metadata flag, as used by
`[s for s in cls._states.values() if s.is_initial]`. -/
def truthy : Option Bool → Bool
  | some true => true
  | _ => false

/-- `list(cls._states.values())`. -/
def values (tbl : Table α) : List (State α) :=
  tbl.map Prod.snd

/-- Python-set deduplication by code equality (spec values compare and hash
by their code, so a set of them holds one representative per code). -/
def dedupByCode [DecidableEq α] (l : List (SC α)) : List (SC α) :=
  l.foldl
    (fun acc v => if acc.any (fun w => w.theCode = v.theCode) then acc
                  else acc ++ [v]) []

/-- `StateMachine.deduce_initial_states`:
`set(cls.transitions.keys()) - right_side`, membership by code equality. -/
def deduce_initial_states [DecidableEq α] (t : Spec α σ) : List (SC α) :=
  dedupByCode
    ((specKeys t).filter
      (fun k => ¬ (right_side t).any (fun v => v.theCode = k.theCode)))

/-- `StateMachine.deduce_terminal_states`:
`right_side - set(cls.transitions.keys())`. -/
def deduce_terminal_states [DecidableEq α] (t : Spec α σ) : List (SC α) :=
  dedupByCode
    ((right_side t).filter
      (fun v => ¬ (specKeys t).any (fun k => k.theCode = v.theCode)))

/-- `cls._states[state].is_initial = True` for a resolved initial state. -/
def markInitial [DecidableEq α] (tbl : Table α) (c : α) : Table α :=
  tbl.map (fun p => if p.1 = c then (p.1, { p.2 with is_initial := some true })
                    else p)

/-- `cls._states[state].is_terminal = True` for a resolved terminal state. -/
def markTerminal [DecidableEq α] (tbl : Table α) (c : α) : Table α :=
  tbl.map (fun p => if p.1 = c then (p.1, { p.2 with is_terminal := some true })
                    else p)

/-- Error classes escaping the `states` classproperty. -/
inductive ConfigErr where
  | valueError
  | improperlyConfigured (msg : String)
deriving Repr, DecidableEq

/-- Lift a merge error out of the accumulation loop. -/
def MergeErr.toConfig : MergeErr → ConfigErr
  | .valueError => .valueError
  | .improperlyConfigured a =>
      .improperlyConfigured ("multiple states with same code and different " ++ a)

/-- The explicit-initial and explicit-terminal filters of `states`. -/
def explicitInitials (tbl : Table α) : List (State α) :=
  (values tbl).filter (fun s => truthy s.is_initial)

def explicitTerminals (tbl : Table α) : List (State α) :=
  (values tbl).filter (fun s => truthy s.is_terminal)

/-- The initial list used by `states`: the explicitly marked states, or —
when there are none — the deduced ones (`if len(initials) == 0: initials =
cls.deduce_initial_states()`). -/
def initialsChosen [DecidableEq α] (t : Spec α σ) (tbl : Table α) :
    List (SC α) :=
  if (explicitInitials tbl).length = 0 then deduce_initial_states t
  else (explicitInitials tbl).map .state

/-- The terminal list used by `states`, analogously. -/
def terminalsChosen [DecidableEq α] (t : Spec α σ) (tbl : Table α) :
    List (SC α) :=
  if (explicitTerminals tbl).length = 0 then deduce_terminal_states t
  else (explicitTerminals tbl).map .state

/-- The error `states` raises when there is not exactly one initial
state. -/
def initialsError : ConfigErr :=
  .improperlyConfigured
    ("Must define exactly 1 initial state. Use " ++
     "State(code, is_initial=True) " ++
     "in transitions to explicitly mark a state as initial.")

/-- The two marking loops at the end of `states`: set `is_initial`
(respectively `is_terminal`) on each resolved initial (terminal) state. -/
def markAll [DecidableEq α] (t : Spec α σ) (tbl0 : Table α) : Table α :=
  (terminalsChosen t tbl0).foldl (fun acc v => markTerminal acc v.theCode)
    ((initialsChosen t tbl0).foldl
      (fun acc v => markInitial acc v.theCode) tbl0)

/-- The `StateMachine.states` classproperty (the computation on first access;
the per-class cache always replays this same value). Builds the code → `State`
table, deduces and marks initial/terminal states, and raises
`ImproperlyConfigured` when there is not exactly one initial state. -/
def statesOf [DecidableEq α] (t : Spec α σ) : Except ConfigErr (Table α) :=
  match mergeStates t with
  | .error e => .error e.toConfig
  | .ok tbl0 =>
    if (initialsChosen t tbl0).length ≠ 1 then .error initialsError
    else .ok (markAll t tbl0)

/-! ## Handler registry (`StateMachine.handle`, `get_handlers`,
`call_handlers`) -/

/-- A matcher component of a handler rule: `StateMachine.ANY` (a unique
sentinel object, the default of every `handle` keyword) or an exact value. -/
inductive Matcher (β : Type) where
  | any
  | exact (b : β)
deriving Repr, DecidableEq

/-- The per-component match test of `call_handlers`:
`condition == arg or condition is StateMachine.ANY`, with `eqf` the Python
`==` of the component type. -/
def Matcher.pyMatches (eqf : β → β → Bool) : Matcher β → β → Bool
  | .any, _ => true
  | .exact c, a => eqf c a

/-- A handler-dict key: the `(from_state, symbol, to_state)` tuple a handler
was registered under. -/
structure Rule (α σ : Type) where
  fromMatcher : Matcher (SC α)
  symMatcher : Matcher σ
  toMatcher : Matcher (SC α)
deriving Repr, DecidableEq

/-- Python `==` between two matcher components as dict keys: the `ANY`
sentinel is equal only to itself (plain `object` identity), exact values
compare by the `==` of the component type. -/
def Matcher.keyEq (eqf : β → β → Bool) : Matcher β → Matcher β → Bool
  | .any, .any => true
  | .exact a, .exact b => eqf a b
  | _, _ => false

/-- Python `==` between two stored rule tuples, as the handlers dict uses for
key lookup: component-wise, with spec values comparing by code and the `ANY`
sentinel equal only to itself. -/
def Rule.keyEq [DecidableEq α] [DecidableEq σ] (r1 r2 : Rule α σ) : Bool :=
  Matcher.keyEq SC.pyEq r1.fromMatcher r2.fromMatcher &&
  Matcher.keyEq (fun a b => decide (a = b)) r1.symMatcher r2.symMatcher &&
  Matcher.keyEq SC.pyEq r1.toMatcher r2.toMatcher

/-- A registered handler: an identity (Python function object identity, used
by the `set` the dict stores) and its behaviour when called with
`(machine, from_state, symbol, to_state)`; the outcome is a returned value or
a raised exception. The machine argument is dropped: it is fixed during one
dispatch and no observed behaviour depends on it. -/
structure Handler (α σ : Type) where
  id : Nat
  run : State α → σ → SC α → Except String String

/-- `cls.handlers`: a dict from rule tuple to a set of handlers. -/
abbrev HandlerDict (α σ : Type) := List (Rule α σ × List (Handler α σ))

/-- Does `call_handlers` consider `r` to match the actual arguments
`(from_state, symbol, to_state)`?  `matches = all(condition == arg or
condition is StateMachine.ANY for condition, arg in zip(rule, args))`, where
the actual `from_state` is a `State` instance and `to_state` is the raw spec
value. -/
def ruleMatches [DecidableEq α] [DecidableEq σ] (r : Rule α σ)
    (f : SC α) (sy : σ) (t : SC α) : Bool :=
  r.fromMatcher.pyMatches SC.pyEq f &&
  r.symMatcher.pyMatches (fun a b => decide (a = b)) sy &&
  r.toMatcher.pyMatches SC.pyEq t

/-- `set.add` on a handler set (identity-based membership). -/
def setAdd (hs : List (Handler α σ)) (h : Handler α σ) : List (Handler α σ) :=
  if hs.any (fun h0 => h0.id = h.id) then hs else hs ++ [h]

/-- `cls.handlers[(from_state, symbol, to_state)].add(fun)`: defaultdict
lookup of the rule key (creating an empty set when absent) followed by
`set.add`. -/
def dictAdd [DecidableEq α] [DecidableEq σ] (d : HandlerDict α σ)
    (r : Rule α σ) (h : Handler α σ) : HandlerDict α σ :=
  match d with
  | [] => [(r, [h])]
  | (r0, hs) :: rest =>
    if Rule.keyEq r0 r then (r0, setAdd hs h) :: rest
    else (r0, hs) :: dictAdd rest r h

/-- The place of a machine definition in the class hierarchy, for handler-attribute
lookup: the MRO from the most-derived class up to (excluding) `StateMachine`,
recording for each class the `handlers` dict in its `__dict__` when `handle`
has created one there (`None` when the class never registered a handler), and
finally the class-level `handlers` dict of `StateMachine` itself. -/
abbrev Chain (α σ : Type) := List (Option (HandlerDict α σ))

/-- Normal attribute lookup of `cls.handlers` along the MRO. -/
def lookupHandlersAttr (chain : Chain α σ) (base : HandlerDict α σ) :
    HandlerDict α σ :=
  match chain with
  | [] => base
  | some d :: _ => d
  | none :: rest => lookupHandlersAttr rest base

/-- `StateMachine.handle(...)` applied to the most-derived class of `chain`:
`if "handlers" not in cls.__dict__: cls.handlers = defaultdict(set)` — a
fresh empty dict, not a copy of any inherited one — then
`cls.handlers[(from_state, symbol, to_state)].add(fun)`. -/
def handle [DecidableEq α] [DecidableEq σ] (chain : Chain α σ)
    (r : Rule α σ) (h : Handler α σ) : Chain α σ :=
  match chain with
  | [] => []
  | own :: rest => some (dictAdd (own.getD []) r h) :: rest

/-- `StateMachine.get_handlers` evaluated on the class described by `chain`.
The method body reads `super().get_handlers()` — but the zero-argument
`super()` inside this classmethod is `super(StateMachine, cls)`, because the
method is defined (once) on `StateMachine`; it therefore resolves attributes
past `StateMachine` in the MRO, where no class of this repository (nor
`object`, nor `django.db.models.Model`) defines `get_handlers`.  The
`hasattr` test is thus always false, `handlers = {}`, and
`handlers.update(cls.handlers)` makes the result a copy of the single dict
that ordinary attribute lookup finds for `cls.handlers`. -/
def get_handlers (chain : Chain α σ) (base : HandlerDict α σ) :
    HandlerDict α σ :=
  lookupHandlersAttr chain base

/-- `StateMachine.call_handlers(from_state, symbol, to_state)`: for every
rule of `get_handlers()` that matches, call every handler of its set; a
raised exception is caught, logged and recorded as the outcome of that handler;
returns the list of `(handler, return value or exception)` pairs. -/
def call_handlers [DecidableEq α] [DecidableEq σ] (hd : HandlerDict α σ)
    (from_state : State α) (sym : σ) (to_state : SC α) :
    List (Handler α σ × Except String String) :=
  hd.flatMap
    (fun p =>
      if ruleMatches p.1 (.state from_state) sym to_state then
        p.2.map (fun h => (h, h.run from_state sym to_state))
      else [])

/-! ## The transition engine -/

/-- A machine definition: its `transitions` configuration, the
`allow_transition` guard (default always true), the behaviour of the `save`
commit hook (an outcome fixed for the definition: success or a raised
exception), and its handler storage. -/
structure SMDef (α σ : Type) where
  transitions : Spec α σ
  guard : State α → σ → SC α → Bool := fun _ _ _ => true
  saveResult : Except String Unit := .ok ()
  chain : Chain α σ := [none]
  baseHandlers : HandlerDict α σ := []

/-- A machine instance: its single mutable field. -/
structure Instance (α : Type) where
  current_state_code : Option α
deriving Repr, DecidableEq

/-- The `current_state` property against a built state table:
`self.states[self.current_state_code]`, with the `KeyError` of a missing key
(including a `None` code) caught and turned into `None`. -/
def currentStateIn [DecidableEq α] (tbl : Table α) (i : Instance α) :
    Option (State α) :=
  i.current_state_code.bind (lookupTable tbl)

/-- `StateMachine.get_next(symbol)` = `self.transitions[self.current_state]
[symbol]`, given the current `State`; outer dict lookup compares stored keys
with the probe `State` by Python `==` (code equality), inner lookup by raw
symbol equality; `none` is the `KeyError` case. -/
def get_next [DecidableEq α] [DecidableEq σ] (t : Spec α σ)
    (cur : State α) (sym : σ) : Option (SC α) :=
  match t.find? (fun p => SC.pyEq p.1 (.state cur)) with
  | none => none
  | some (_, row) => (row.find? (fun q => decide (q.1 = sym))).map Prod.snd

/-- Observable side effects of one `transition` call, in order. -/
inductive Event (α σ : Type) where
  | guardCall (fromState : State α) (sym : σ) (next : SC α)
  | setState (c : α)
  | saveCall
  | dispatch
deriving Repr, DecidableEq

/-- Outcome of one `transition` call. -/
inductive TOutcome (α σ : Type) where
  | configError (e : ConfigErr)
  | illegal (cur : Option (State α)) (sym : σ)
  | keyError
  | saveError (e : String)
  | success (results : List (Handler α σ × Except String String))

/-- `StateMachine.transition(symbol)`.  Returns the instance after the call,
the outcome (`IllegalTransition` carries `(self.current_state, symbol)`), and
the ordered list of observable effects.  Line by line: `get_next` with its
`KeyError` → `IllegalTransition` translation; the `allow_transition` guard;
`current_state = self.current_state`; the `current_state` setter
`self.current_state_code = self.states[state].code`; `self.save()` (an
exception propagates); finally `call_handlers(current_state, symbol,
next_state)` whose result list is returned. -/
def transition [DecidableEq α] [DecidableEq σ] (d : SMDef α σ)
    (i : Instance α) (sym : σ) :
    Instance α × TOutcome α σ × List (Event α σ) :=
  match statesOf d.transitions with
  | .error e => (i, .configError e, [])
  | .ok tbl =>
    match currentStateIn tbl i with
    | none => (i, .illegal none sym, [])
    | some cur =>
      match get_next d.transitions cur sym with
      | none => (i, .illegal (some cur) sym, [])
      | some next_state =>
        if d.guard cur sym next_state then
          match lookupTable tbl next_state.theCode with
          | none => (i, .keyError, [.guardCall cur sym next_state])
          | some ns =>
            let i' : Instance α := ⟨some ns.code⟩
            match d.saveResult with
            | .error e =>
              (i', .saveError e,
               [.guardCall cur sym next_state, .setState ns.code, .saveCall])
            | .ok _ =>
              (i', .success
                 (call_handlers (get_handlers d.chain d.baseHandlers)
                   cur sym next_state),
               [.guardCall cur sym next_state, .setState ns.code, .saveCall,
                .dispatch])
        else (i, .illegal (some cur) sym, [.guardCall cur sym next_state])

/-- Errors escaping `StateMachine.__init__`. -/
inductive InitErr where
  | config (e : ConfigErr)
  | keyError
deriving Repr, DecidableEq

/-- `StateMachine.get_initial_state()` against a built table: the first state
of `cls.states.values()` with a truthy `is_initial`, or `None`. -/
def get_initial_state (tbl : Table α) : Option (State α) :=
  (values tbl).find? (fun s => truthy s.is_initial)

/-- `StateMachine.__init__` for a fresh instance (class attribute
`current_state_code = None`): `self.current_state = self.get_initial_state()`.
The setter looks the value up in `self.states` — looking up `None` (no
initial state found) or a state missing from the table raises `KeyError`. -/
def initInstance [DecidableEq α] (d : SMDef α σ) :
    Except InitErr (Instance α) :=
  match statesOf d.transitions with
  | .error e => .error (.config e)
  | .ok tbl =>
    match get_initial_state tbl with
    | none => .error .keyError
    | some s =>
      match lookupTable tbl s.code with
      | none => .error .keyError
      | some st => .ok ⟨some st.code⟩

/-! ## Helper notions used to state the claims -/

/-- Two optional metadata values truly conflict: both non-null and
different. -/
def attrConflict [DecidableEq β] (a b : Option β) : Prop :=
  a ≠ none ∧ b ≠ none ∧ a ≠ b

instance [DecidableEq β] (a b : Option β) : Decidable (attrConflict a b) := by
  unfold attrConflict; infer_instance

/-- "The non-null value (or null if both are null)". -/
def pick (a b : Option β) : Option β :=
  match a with
  | none => b
  | some x => some x

theorem SC.pyEq_iff_theCode [DecidableEq α] (a b : SC α) :
    SC.pyEq a b = true ↔ a.theCode = b.theCode := by
  cases a <;> cases b <;>
    simp only [SC.pyEq, SC.theCode, decide_eq_true_eq] <;>
    first
    | exact Iff.rfl
    | exact eq_comm

/-! ## Concrete example machines for witnesses and counterexamples -/

/-- `transitions = {0: {"go": 1}}`, all plain defaults. -/
def dGo : SMDef Int String := { transitions := [(.code 0, [("go", .code 1)])] }

/-- The state table `statesOf` builds for `dGo`. -/
def tblGo : Table Int :=
  [(1, ⟨1, none, none, some true⟩), (0, ⟨0, none, some true, none⟩)]

/-- `transitions = {0: {"fail": 2}}`: the destination is a bare code. -/
def dC2 : SMDef Int String := { transitions := [(.code 0, [("fail", .code 2)])] }

/-- A wildcard rule over `Int` codes and `String` symbols. -/
def ruleAll : Rule Int String := ⟨.any, .any, .any⟩

/-- A handler that raises. -/
def hBoom : Handler Int String := ⟨1, fun _ _ _ => .error "boom"⟩

/-- A handler that returns normally. -/
def hFine : Handler Int String := ⟨2, fun _ _ _ => .ok "done"⟩

/-- A machine like `dGo` whose commit hook raises. -/
def dGoBadSave : SMDef Int String :=
  { transitions := [(.code 0, [("go", .code 1)])],
    saveResult := .error "db down" }

/-- The handler identities in the dispatch-result list of a successful outcome. -/
def TOutcome.resultIds : TOutcome α σ → Option (List Nat)
  | .success rs => some (rs.map (fun p => p.1.id))
  | _ => none

/-- A handler registered on the parent definition. -/
def hParent : Handler Int String := ⟨1, fun _ _ _ => .ok "parent"⟩

/-- A handler registered on the subclass definition. -/
def hSub : Handler Int String := ⟨2, fun _ _ _ => .ok "sub"⟩

/-- The rule `from_state=0` (wildcard symbol and destination). -/
def ruleFrom0 : Rule Int String := ⟨.exact (.code 0), .any, .any⟩

/-- The chain of a direct `StateMachine` subclass `Parent` after
`@Parent.handle(from_state=0)` registered `hParent`. -/
def parentChain : Chain Int String := handle [none] ruleFrom0 hParent

/-- The chain of `Sub(Parent)` — `Sub` adds a fresh MRO entry in front of
the entry of `Parent` — after `@Sub.handle()` registered `hSub`. -/
def subChain : Chain Int String := handle (none :: parentChain) ruleAll hSub

/-- `Parent`, a machine over `{0: {"go": 1}}` with `hParent` registered. -/
def dSuper : SMDef Int String :=
  { transitions := [(.code 0, [("go", .code 1)])], chain := parentChain }

/-- `Sub(Parent)`: same transitions, both registrations visible in the MRO. -/
def dSub : SMDef Int String :=
  { transitions := [(.code 0, [("go", .code 1)])], chain := subChain }

/-! ## Lemmas about attribute merging -/

theorem mergeAttr_of_conflict [DecidableEq β] (a b : Option β) (n : String)
    (h : attrConflict a b) :
    mergeAttr a b n = .error (.improperlyConfigured n) := by
  obtain ⟨ha, hb, hab⟩ := h
  rw [mergeAttr, if_pos ⟨hab, hb⟩, if_neg ha]

theorem mergeAttr_of_no_conflict [DecidableEq β] (a b : Option β) (n : String)
    (h : ¬ attrConflict a b) :
    mergeAttr a b n = .ok (pick a b) := by
  unfold attrConflict at h
  push_neg at h
  by_cases h1 : a ≠ b ∧ b ≠ none
  · have ha : a = none := by
      by_cases ha : a = none
      · exact ha
      · exact absurd (h ha h1.2) h1.1
    rw [mergeAttr, if_pos h1, if_pos ha]
    subst ha
    rfl
  · rw [mergeAttr, if_neg h1]
    rcases not_and_or.mp h1 with h2 | h2
    · have hab : a = b := by simpa using h2
      cases a with
      | none => simp [pick, hab]
      | some x => simp [pick]
    · have hbn : b = none := by simpa using h2
      cases a with
      | none => simp [pick, hbn]
      | some x => simp [pick]

theorem mergeAttr_error_name [DecidableEq β] {a b : Option β} {n : String}
    {e : MergeErr} (h : mergeAttr a b n = .error e) :
    e = .improperlyConfigured n := by
  unfold mergeAttr at h
  split at h
  · split at h
    · simp at h
    · simp only [Except.error.injEq] at h
      exact h.symm
  · simp at h

theorem mergeAttr_ok_keeps [DecidableEq β] {a b r : Option β} {n : String}
    (h : mergeAttr a b n = .ok r) : ∀ x, a = some x → r = some x := by
  intro x hx
  unfold mergeAttr at h
  split at h
  · split at h
    · simp [hx] at *
    · simp at h
  · simp only [Except.ok.injEq] at h
    rw [← h, hx]

theorem mergeAttr_ok_adds [DecidableEq β] {a b r : Option β} {n : String}
    (h : mergeAttr a b n = .ok r) : ∀ x, b = some x → r = some x := by
  intro x hx
  unfold mergeAttr at h
  by_cases hcond : a ≠ b ∧ b ≠ none
  · rw [if_pos hcond] at h
    split at h
    · simp only [Except.ok.injEq] at h
      rw [← h, hx]
    · simp at h
  · rw [if_neg hcond] at h
    simp only [Except.ok.injEq] at h
    rw [not_and_or] at hcond
    rcases hcond with h1 | h1
    · have hab : a = b := by simpa using h1
      rw [← h, hab, hx]
    · have hb : b = none := by simpa using h1
      rw [hb] at hx
      simp at hx

theorem mergeAttr_ok_origin [DecidableEq β] {a b r : Option β} {n : String}
    (h : mergeAttr a b n = .ok r) : r = a ∨ r = b := by
  unfold mergeAttr at h
  split at h
  · split at h
    · simp only [Except.ok.injEq] at h
      exact Or.inr h.symm
    · simp at h
  · simp only [Except.ok.injEq] at h
    exact Or.inl h.symm

/-- Decomposition of a successful `merge_data` into its per-attribute
merges. -/
theorem merge_data_ok_parts [DecidableEq α] {s t m : State α}
    (h : s.merge_data t = .ok m) :
    m.code = s.code ∧
    mergeAttr s.label t.label "label" = .ok m.label ∧
    mergeAttr s.is_initial t.is_initial "is_initial" = .ok m.is_initial ∧
    mergeAttr s.is_terminal t.is_terminal "is_terminal" =
      .ok m.is_terminal := by
  unfold State.merge_data at h
  split at h
  · simp at h
  · cases h1 : mergeAttr s.label t.label "label" with
    | error e => rw [h1] at h; simp at h
    | ok lab =>
      rw [h1] at h
      cases h2 : mergeAttr s.is_initial t.is_initial "is_initial" with
      | error e => rw [h2] at h; simp at h
      | ok ini =>
        rw [h2] at h
        cases h3 : mergeAttr s.is_terminal t.is_terminal "is_terminal" with
        | error e => rw [h3] at h; simp at h
        | ok ter =>
          rw [h3] at h
          simp only [Except.ok.injEq] at h
          subst h
          exact ⟨rfl, rfl, rfl, rfl⟩

/-- A failing `merge_data` between same-code states is always an
`ImproperlyConfigured`. -/
theorem merge_data_error_name [DecidableEq α] {s t : State α} {e : MergeErr}
    (hc : s.code = t.code) (h : s.merge_data t = .error e) :
    ∃ a, e = .improperlyConfigured a := by
  unfold State.merge_data at h
  rw [if_neg (by simp [hc])] at h
  cases h1 : mergeAttr s.label t.label "label" with
  | error e1 =>
    rw [h1] at h
    simp only [Except.error.injEq] at h
    exact ⟨"label", by rw [← h, mergeAttr_error_name h1]⟩
  | ok lab =>
    rw [h1] at h
    cases h2 : mergeAttr s.is_initial t.is_initial "is_initial" with
    | error e2 =>
      rw [h2] at h
      simp only [Except.error.injEq] at h
      exact ⟨"is_initial", by rw [← h, mergeAttr_error_name h2]⟩
    | ok ini =>
      rw [h2] at h
      cases h3 : mergeAttr s.is_terminal t.is_terminal "is_terminal" with
      | error e3 =>
        rw [h3] at h
        simp only [Except.error.injEq] at h
        exact ⟨"is_terminal", by rw [← h, mergeAttr_error_name h3]⟩
      | ok ter => rw [h3] at h; simp at h

/-! ## Lemmas about table lookup -/

theorem lookupTable_cons [DecidableEq α] (c : α) (s : State α)
    (rest : Table α) (c' : α) :
    lookupTable ((c, s) :: rest) c' =
      if c = c' then some s else lookupTable rest c' := by
  unfold lookupTable
  rw [List.find?_cons]
  by_cases h : c = c' <;> simp [h]

theorem lookupTable_eq_none_iff [DecidableEq α] (tbl : Table α) (c : α) :
    lookupTable tbl c = none ↔ c ∉ tbl.map Prod.fst := by
  induction tbl with
  | nil => simp [lookupTable]
  | cons p rest ih =>
    obtain ⟨c0, s0⟩ := p
    rw [lookupTable_cons]
    by_cases h : c0 = c
    · subst h
      simp
    · rw [if_neg h, List.map_cons, List.mem_cons, ih]
      constructor
      · intro h1 h2
        rcases h2 with h2 | h2
        · exact h h2.symm
        · exact h1 h2
      · intro h1 h2
        exact h1 (Or.inr h2)

theorem lookupTable_mem [DecidableEq α] {tbl : Table α} {c : α}
    {s : State α} (h : lookupTable tbl c = some s) : (c, s) ∈ tbl := by
  induction tbl with
  | nil => simp [lookupTable] at h
  | cons p rest ih =>
    obtain ⟨c0, s0⟩ := p
    rw [lookupTable_cons] at h
    by_cases hc : c0 = c
    · rw [if_pos hc] at h
      simp only [Option.some.injEq] at h
      subst hc
      rw [← h]
      exact List.mem_cons_self _ _
    · rw [if_neg hc] at h
      exact List.mem_cons_of_mem _ (ih h)

theorem mem_lookupTable [DecidableEq α] {tbl : Table α} {c : α}
    {s : State α} (hnd : (tbl.map Prod.fst).Nodup) (h : (c, s) ∈ tbl) :
    lookupTable tbl c = some s := by
  induction tbl with
  | nil => simp at h
  | cons p rest ih =>
    obtain ⟨c0, s0⟩ := p
    simp only [List.map_cons, List.nodup_cons] at hnd
    rw [lookupTable_cons]
    rcases List.mem_cons.mp h with h1 | h1
    · simp only [Prod.mk.injEq] at h1
      rw [if_pos h1.1.symm]
      rw [h1.2]
    · have hc0 : c0 ≠ c := by
        intro he
        subst he
        exact hnd.1 (List.mem_map_of_mem Prod.fst h1)
      rw [if_neg hc0]
      exact ih hnd.2 h1

/-! ## Lemmas about one step of the accumulation loop -/

theorem insertState_ok_lookup_ne [DecidableEq α] {tbl tbl' : Table α}
    {st : State α} (h : insertState tbl st = .ok tbl') :
    ∀ c', c' ≠ st.code → lookupTable tbl' c' = lookupTable tbl c' := by
  induction tbl generalizing tbl' with
  | nil =>
    intro c' hc
    simp only [insertState, Except.ok.injEq] at h
    subst h
    rw [lookupTable_cons, if_neg (fun he => hc he.symm)]
  | cons p rest ih =>
    obtain ⟨c, s0⟩ := p
    intro c' hc
    unfold insertState at h
    by_cases hceq : c = st.code
    · rw [if_pos hceq] at h
      cases hm : State.merge_data s0 st with
      | error e => rw [hm] at h; simp at h
      | ok m =>
        rw [hm] at h
        simp only [Except.ok.injEq] at h
        subst h
        have hne : c ≠ c' := by rw [hceq]; exact fun he => hc he.symm
        rw [lookupTable_cons, lookupTable_cons, if_neg hne, if_neg hne]
    · rw [if_neg hceq] at h
      cases hr : insertState rest st with
      | error e => rw [hr] at h; simp at h
      | ok r =>
        rw [hr] at h
        simp only [Except.ok.injEq] at h
        subst h
        rw [lookupTable_cons, lookupTable_cons]
        by_cases hcc : c = c'
        · rw [if_pos hcc, if_pos hcc]
        · rw [if_neg hcc, if_neg hcc]
          exact ih hr c' hc

theorem insertState_ok_lookup_self [DecidableEq α] {tbl tbl' : Table α}
    {st : State α} (h : insertState tbl st = .ok tbl') :
    (lookupTable tbl st.code = none → lookupTable tbl' st.code = some st) ∧
    (∀ s1, lookupTable tbl st.code = some s1 →
      ∃ m, s1.merge_data st = .ok m ∧ lookupTable tbl' st.code = some m) := by
  induction tbl generalizing tbl' with
  | nil =>
    simp only [insertState, Except.ok.injEq] at h
    subst h
    constructor
    · intro _
      rw [lookupTable_cons, if_pos rfl]
    · intro s1 h0
      simp [lookupTable] at h0
  | cons p rest ih =>
    obtain ⟨c, s0⟩ := p
    unfold insertState at h
    by_cases hceq : c = st.code
    · rw [if_pos hceq] at h
      cases hm : State.merge_data s0 st with
      | error e => rw [hm] at h; simp at h
      | ok m =>
        rw [hm] at h
        simp only [Except.ok.injEq] at h
        subst h
        constructor
        · intro hnone
          rw [lookupTable_cons, if_pos hceq] at hnone
          simp at hnone
        · intro s1 h0
          rw [lookupTable_cons, if_pos hceq] at h0
          simp only [Option.some.injEq] at h0
          subst h0
          exact ⟨m, hm, by rw [lookupTable_cons, if_pos hceq]⟩
    · rw [if_neg hceq] at h
      cases hr : insertState rest st with
      | error e => rw [hr] at h; simp at h
      | ok r =>
        rw [hr] at h
        simp only [Except.ok.injEq] at h
        subst h
        constructor
        · intro hnone
          rw [lookupTable_cons, if_neg hceq] at hnone
          rw [lookupTable_cons, if_neg hceq]
          exact (ih hr).1 hnone
        · intro s1 h0
          rw [lookupTable_cons, if_neg hceq] at h0
          obtain ⟨m, hm, hl⟩ := (ih hr).2 s1 h0
          exact ⟨m, hm, by rw [lookupTable_cons, if_neg hceq]; exact hl⟩

theorem insertState_ok_keys [DecidableEq α] {tbl tbl' : Table α}
    {st : State α} (h : insertState tbl st = .ok tbl') :
    (lookupTable tbl st.code = none ∧
      tbl'.map Prod.fst = tbl.map Prod.fst ++ [st.code]) ∨
    tbl'.map Prod.fst = tbl.map Prod.fst := by
  induction tbl generalizing tbl' with
  | nil =>
    simp only [insertState, Except.ok.injEq] at h
    subst h
    exact Or.inl ⟨rfl, rfl⟩
  | cons p rest ih =>
    obtain ⟨c, s0⟩ := p
    unfold insertState at h
    by_cases hceq : c = st.code
    · rw [if_pos hceq] at h
      cases hm : State.merge_data s0 st with
      | error e => rw [hm] at h; simp at h
      | ok m =>
        rw [hm] at h
        simp only [Except.ok.injEq] at h
        subst h
        exact Or.inr (by simp)
    · rw [if_neg hceq] at h
      cases hr : insertState rest st with
      | error e => rw [hr] at h; simp at h
      | ok r =>
        rw [hr] at h
        simp only [Except.ok.injEq] at h
        subst h
        rcases ih hr with ⟨hn, hk⟩ | hk
        · refine Or.inl ⟨?_, by simp [hk]⟩
          rw [lookupTable_cons, if_neg hceq]
          exact hn
        · exact Or.inr (by simp [hk])

theorem insertState_ok_codes [DecidableEq α] {tbl tbl' : Table α}
    {st : State α} (hinv : ∀ p ∈ tbl, (p.2).code = p.1)
    (h : insertState tbl st = .ok tbl') :
    ∀ p ∈ tbl', (p.2).code = p.1 := by
  induction tbl generalizing tbl' with
  | nil =>
    simp only [insertState, Except.ok.injEq] at h
    subst h
    intro p hp
    simp only [List.mem_singleton] at hp
    subst hp
    rfl
  | cons q rest ih =>
    obtain ⟨c, s0⟩ := q
    unfold insertState at h
    by_cases hceq : c = st.code
    · rw [if_pos hceq] at h
      cases hm : State.merge_data s0 st with
      | error e => rw [hm] at h; simp at h
      | ok m =>
        rw [hm] at h
        simp only [Except.ok.injEq] at h
        subst h
        intro p hp
        rcases List.mem_cons.mp hp with h1 | h1
        · subst h1
          show m.code = c
          rw [(merge_data_ok_parts hm).1]
          exact hinv (c, s0) (List.mem_cons_self _ _)
        · exact hinv p (List.mem_cons_of_mem _ h1)
    · rw [if_neg hceq] at h
      cases hr : insertState rest st with
      | error e => rw [hr] at h; simp at h
      | ok r =>
        rw [hr] at h
        simp only [Except.ok.injEq] at h
        subst h
        intro p hp
        rcases List.mem_cons.mp hp with h1 | h1
        · subst h1
          exact hinv (c, s0) (List.mem_cons_self _ _)
        · exact ih (fun q hq => hinv q (List.mem_cons_of_mem _ hq)) hr p h1

theorem insertState_error [DecidableEq α] {tbl : Table α} {st : State α}
    {e : MergeErr} (h : insertState tbl st = .error e) :
    ∃ s1, lookupTable tbl st.code = some s1 ∧
      s1.merge_data st = .error e := by
  induction tbl with
  | nil => simp [insertState] at h
  | cons q rest ih =>
    obtain ⟨c, s0⟩ := q
    unfold insertState at h
    by_cases hceq : c = st.code
    · rw [if_pos hceq] at h
      cases hm : State.merge_data s0 st with
      | error e1 =>
        rw [hm] at h
        simp only [Except.error.injEq] at h
        subst h
        exact ⟨s0, by rw [lookupTable_cons, if_pos hceq], hm⟩
      | ok m => rw [hm] at h; simp at h
    · rw [if_neg hceq] at h
      cases hr : insertState rest st with
      | error e1 =>
        rw [hr] at h
        simp only [Except.error.injEq] at h
        subst h
        obtain ⟨s1, hl, hmerge⟩ := ih hr
        exact ⟨s1, by rw [lookupTable_cons, if_neg hceq]; exact hl, hmerge⟩
      | ok r => rw [hr] at h; simp at h

/-! ## Lemmas about the whole accumulation loop -/

theorem insertAll_codes [DecidableEq α] {tbl tbl' : Table α}
    {l : List (State α)} (hinv : ∀ p ∈ tbl, (p.2).code = p.1)
    (h : insertAll tbl l = .ok tbl') : ∀ p ∈ tbl', (p.2).code = p.1 := by
  induction l generalizing tbl with
  | nil =>
    simp only [insertAll, Except.ok.injEq] at h
    subst h
    exact hinv
  | cons st rest ih =>
    unfold insertAll at h
    cases h1 : insertState tbl st with
    | error e => rw [h1] at h; simp at h
    | ok tbl1 =>
      rw [h1] at h
      exact ih (insertState_ok_codes hinv h1) h

theorem insertAll_lookup_none_iff [DecidableEq α] {tbl tbl' : Table α}
    {l : List (State α)} (h : insertAll tbl l = .ok tbl') :
    ∀ c, lookupTable tbl' c = none ↔
      (lookupTable tbl c = none ∧ ∀ st ∈ l, st.code ≠ c) := by
  induction l generalizing tbl with
  | nil =>
    simp only [insertAll, Except.ok.injEq] at h
    subst h
    intro c
    simp
  | cons st rest ih =>
    unfold insertAll at h
    cases h1 : insertState tbl st with
    | error e => rw [h1] at h; simp at h
    | ok tbl1 =>
      rw [h1] at h
      intro c
      rw [ih h c]
      by_cases hc : st.code = c
      · subst hc
        constructor
        · rintro ⟨hn, _⟩
          exfalso
          cases hl : lookupTable tbl st.code with
          | none =>
            have h2 := (insertState_ok_lookup_self h1).1 hl
            rw [h2] at hn
            simp at hn
          | some s1 =>
            obtain ⟨m, _, hm2⟩ := (insertState_ok_lookup_self h1).2 s1 hl
            rw [hm2] at hn
            simp at hn
        · rintro ⟨_, hall⟩
          exact absurd rfl (hall st (List.mem_cons_self _ _))
      · constructor
        · rintro ⟨hn, hall⟩
          rw [insertState_ok_lookup_ne h1 c (fun he => hc he.symm)] at hn
          refine ⟨hn, fun st' hst' => ?_⟩
          rcases List.mem_cons.mp hst' with h2 | h2
          · subst h2
            exact hc
          · exact hall st' h2
        · rintro ⟨hn, hall⟩
          refine ⟨?_, fun st' hst' => hall st' (List.mem_cons_of_mem _ hst')⟩
          rw [insertState_ok_lookup_ne h1 c (fun he => hc he.symm)]
          exact hn

theorem insertAll_mono_initial [DecidableEq α] {tbl tbl' : Table α}
    {l : List (State α)} (h : insertAll tbl l = .ok tbl') :
    ∀ c s, lookupTable tbl c = some s →
      ∃ s', lookupTable tbl' c = some s' ∧
        (∀ x, s.is_initial = some x → s'.is_initial = some x) := by
  induction l generalizing tbl with
  | nil =>
    simp only [insertAll, Except.ok.injEq] at h
    subst h
    exact fun c s hs => ⟨s, hs, fun x hx => hx⟩
  | cons st rest ih =>
    unfold insertAll at h
    cases h1 : insertState tbl st with
    | error e => rw [h1] at h; simp at h
    | ok tbl1 =>
      rw [h1] at h
      intro c s hs
      by_cases hc : c = st.code
      · subst hc
        obtain ⟨m, hm, hl1⟩ := (insertState_ok_lookup_self h1).2 s hs
        obtain ⟨s', hs', hkeep⟩ := ih h _ m hl1
        exact ⟨s', hs', fun x hx =>
          hkeep x (mergeAttr_ok_keeps (merge_data_ok_parts hm).2.2.1 x hx)⟩
      · rw [← insertState_ok_lookup_ne h1 c hc] at hs
        exact ih h c s hs

theorem insertAll_decl_initial [DecidableEq α] {tbl tbl' : Table α}
    {l : List (State α)} (h : insertAll tbl l = .ok tbl') :
    ∀ st ∈ l, ∀ x, st.is_initial = some x →
      ∃ s', lookupTable tbl' st.code = some s' ∧
        s'.is_initial = some x := by
  induction l generalizing tbl with
  | nil =>
    intro st hst
    simp at hst
  | cons st0 rest ih =>
    unfold insertAll at h
    cases h1 : insertState tbl st0 with
    | error e => rw [h1] at h; simp at h
    | ok tbl1 =>
      rw [h1] at h
      intro st hst x hx
      rcases List.mem_cons.mp hst with h2 | h2
      · subst h2
        have hentry : ∃ s1, lookupTable tbl1 st.code = some s1 ∧
            s1.is_initial = some x := by
          cases hl : lookupTable tbl st.code with
          | none => exact ⟨st, (insertState_ok_lookup_self h1).1 hl, hx⟩
          | some s1 =>
            obtain ⟨m, hm, hl1⟩ := (insertState_ok_lookup_self h1).2 s1 hl
            exact ⟨m, hl1,
              mergeAttr_ok_adds (merge_data_ok_parts hm).2.2.1 x hx⟩
        obtain ⟨s1, hl1, hi1⟩ := hentry
        obtain ⟨s', hs', hkeep⟩ := insertAll_mono_initial h _ s1 hl1
        exact ⟨s', hs', hkeep x hi1⟩
      · exact ih h st h2 x hx

theorem insertAll_origin_initial [DecidableEq α] {tbl tbl' : Table α}
    {l : List (State α)} (h : insertAll tbl l = .ok tbl') :
    ∀ c s', lookupTable tbl' c = some s' →
      (∃ s, lookupTable tbl c = some s ∧ s.is_initial = s'.is_initial) ∨
      (∃ st ∈ l, st.code = c ∧ st.is_initial = s'.is_initial) := by
  induction l generalizing tbl with
  | nil =>
    simp only [insertAll, Except.ok.injEq] at h
    subst h
    exact fun c s' hs' => Or.inl ⟨s', hs', rfl⟩
  | cons st0 rest ih =>
    unfold insertAll at h
    cases h1 : insertState tbl st0 with
    | error e => rw [h1] at h; simp at h
    | ok tbl1 =>
      rw [h1] at h
      intro c s' hs'
      rcases ih h c s' hs' with ⟨s1, hl1, heq⟩ | ⟨st, hst, hcode, heq⟩
      · by_cases hc : c = st0.code
        · subst hc
          cases hl : lookupTable tbl st0.code with
          | none =>
            have h2 := (insertState_ok_lookup_self h1).1 hl
            rw [h2] at hl1
            have hs1 : s1 = st0 := (Option.some.inj hl1).symm
            exact Or.inr ⟨st0, List.mem_cons_self _ _, rfl,
              by rw [← heq, hs1]⟩
          | some s0 =>
            obtain ⟨m, hm, hl1'⟩ := (insertState_ok_lookup_self h1).2 s0 hl
            rw [hl1'] at hl1
            have hs1 : s1 = m := (Option.some.inj hl1).symm
            rcases mergeAttr_ok_origin (merge_data_ok_parts hm).2.2.1
              with ho | ho
            · exact Or.inl ⟨s0, rfl, by rw [← heq, hs1, ho]⟩
            · exact Or.inr ⟨st0, List.mem_cons_self _ _, rfl,
                by rw [← heq, hs1, ho]⟩
        · rw [insertState_ok_lookup_ne h1 c hc] at hl1
          exact Or.inl ⟨s1, hl1, heq⟩
      · exact Or.inr ⟨st, List.mem_cons_of_mem _ hst, hcode, heq⟩

theorem insertAll_nodup [DecidableEq α] {tbl tbl' : Table α}
    {l : List (State α)} (hnd : (tbl.map Prod.fst).Nodup)
    (h : insertAll tbl l = .ok tbl') : (tbl'.map Prod.fst).Nodup := by
  induction l generalizing tbl with
  | nil =>
    simp only [insertAll, Except.ok.injEq] at h
    subst h
    exact hnd
  | cons st rest ih =>
    unfold insertAll at h
    cases h1 : insertState tbl st with
    | error e => rw [h1] at h; simp at h
    | ok tbl1 =>
      rw [h1] at h
      refine ih ?_ h
      rcases insertState_ok_keys h1 with ⟨hn, hk⟩ | hk
      · rw [hk]
        rw [lookupTable_eq_none_iff] at hn
        simp [List.nodup_append, hnd, hn]
      · rw [hk]
        exact hnd

theorem insertAll_error_name [DecidableEq α] {tbl : Table α}
    {l : List (State α)} {e : MergeErr}
    (hinv : ∀ p ∈ tbl, (p.2).code = p.1)
    (h : insertAll tbl l = .error e) :
    ∃ a, e = .improperlyConfigured a := by
  induction l generalizing tbl with
  | nil => simp [insertAll] at h
  | cons st rest ih =>
    unfold insertAll at h
    cases h1 : insertState tbl st with
    | error e1 =>
      rw [h1] at h
      simp only [Except.error.injEq] at h
      subst h
      obtain ⟨s1, hl, hmerge⟩ := insertState_error h1
      have hc : s1.code = st.code := hinv (st.code, s1) (lookupTable_mem hl)
      exact merge_data_error_name hc hmerge
    | ok tbl1 =>
      rw [h1] at h
      exact ih (insertState_ok_codes hinv h1) h

/-! ## Lemmas about set deduplication, marking and truthiness -/

theorem truthy_iff (o : Option Bool) : truthy o = true ↔ o = some true := by
  cases o with
  | none => simp [truthy]
  | some b => cases b <;> simp [truthy]

theorem dedupByCode_aux_exists [DecidableEq α] (l acc : List (SC α))
    (c : α) :
    (∃ v ∈ l.foldl
        (fun acc v => if acc.any (fun w => w.theCode = v.theCode) then acc
                      else acc ++ [v]) acc, v.theCode = c) ↔
      (∃ v ∈ acc, v.theCode = c) ∨ (∃ v ∈ l, v.theCode = c) := by
  induction l generalizing acc with
  | nil => simp
  | cons v0 rest ih =>
    rw [List.foldl_cons]
    by_cases hany : acc.any (fun w => w.theCode = v0.theCode) = true
    · rw [if_pos hany, ih]
      constructor
      · rintro (⟨v, hv, hc⟩ | ⟨v, hv, hc⟩)
        · exact Or.inl ⟨v, hv, hc⟩
        · exact Or.inr ⟨v, List.mem_cons_of_mem _ hv, hc⟩
      · rintro (⟨v, hv, hc⟩ | ⟨v, hv, hc⟩)
        · exact Or.inl ⟨v, hv, hc⟩
        · rcases List.mem_cons.mp hv with h2 | h2
          · subst h2
            rw [List.any_eq_true] at hany
            obtain ⟨w, hw, hwc⟩ := hany
            simp only [decide_eq_true_eq] at hwc
            exact Or.inl ⟨w, hw, by rw [hwc, hc]⟩
          · exact Or.inr ⟨v, h2, hc⟩
    · rw [if_neg hany, ih]
      constructor
      · rintro (⟨v, hv, hc⟩ | ⟨v, hv, hc⟩)
        · rcases List.mem_append.mp hv with h2 | h2
          · exact Or.inl ⟨v, h2, hc⟩
          · simp only [List.mem_singleton] at h2
            subst h2
            exact Or.inr ⟨v, List.mem_cons_self _ _, hc⟩
        · exact Or.inr ⟨v, List.mem_cons_of_mem _ hv, hc⟩
      · rintro (⟨v, hv, hc⟩ | ⟨v, hv, hc⟩)
        · exact Or.inl ⟨v, List.mem_append.mpr (Or.inl hv), hc⟩
        · rcases List.mem_cons.mp hv with h2 | h2
          · subst h2
            exact Or.inl ⟨v,
              List.mem_append.mpr (Or.inr (List.mem_singleton.mpr rfl)), hc⟩
          · exact Or.inr ⟨v, h2, hc⟩

theorem dedupByCode_exists [DecidableEq α] (l : List (SC α)) (c : α) :
    (∃ v ∈ dedupByCode l, v.theCode = c) ↔ ∃ v ∈ l, v.theCode = c := by
  unfold dedupByCode
  rw [dedupByCode_aux_exists]
  simp

theorem dedupByCode_aux_subset [DecidableEq α] (l acc : List (SC α)) :
    ∀ x ∈ l.foldl
      (fun acc v => if acc.any (fun w => w.theCode = v.theCode) then acc
                    else acc ++ [v]) acc, x ∈ acc ∨ x ∈ l := by
  induction l generalizing acc with
  | nil =>
    intro x hx
    exact Or.inl hx
  | cons v0 rest ih =>
    intro x hx
    rw [List.foldl_cons] at hx
    by_cases hany : acc.any (fun w => w.theCode = v0.theCode) = true
    · rw [if_pos hany] at hx
      rcases ih acc x hx with h | h
      · exact Or.inl h
      · exact Or.inr (List.mem_cons_of_mem _ h)
    · rw [if_neg hany] at hx
      rcases ih (acc ++ [v0]) x hx with h | h
      · rcases List.mem_append.mp h with h2 | h2
        · exact Or.inl h2
        · simp only [List.mem_singleton] at h2
          subst h2
          exact Or.inr (List.mem_cons_self _ _)
      · exact Or.inr (List.mem_cons_of_mem _ h)

theorem dedupByCode_subset [DecidableEq α] {l : List (SC α)} {x : SC α}
    (h : x ∈ dedupByCode l) : x ∈ l := by
  unfold dedupByCode at h
  rcases dedupByCode_aux_subset l [] x h with h2 | h2
  · simp at h2
  · exact h2

theorem markInitial_keys [DecidableEq α] (tbl : Table α) (c : α) :
    (markInitial tbl c).map Prod.fst = tbl.map Prod.fst := by
  induction tbl with
  | nil => rfl
  | cons p rest ih =>
    simp only [markInitial, List.map_cons] at *
    rw [ih]
    congr 1
    by_cases h : p.1 = c <;> simp [h]

theorem markTerminal_keys [DecidableEq α] (tbl : Table α) (c : α) :
    (markTerminal tbl c).map Prod.fst = tbl.map Prod.fst := by
  induction tbl with
  | nil => rfl
  | cons p rest ih =>
    simp only [markTerminal, List.map_cons] at *
    rw [ih]
    congr 1
    by_cases h : p.1 = c <;> simp [h]

theorem markInitial_mem_self [DecidableEq α] {tbl : Table α} {c : α}
    {s : State α} (h : (c, s) ∈ tbl) :
    (c, { s with is_initial := some true }) ∈ markInitial tbl c := by
  unfold markInitial
  have h2 := List.mem_map_of_mem
    (fun p : α × State α =>
      if p.1 = c then (p.1, { p.2 with is_initial := some true }) else p) h
  simpa using h2

theorem markTerminal_preserves [DecidableEq α] {tbl : Table α} {c0 : α}
    {s : State α} (c : α) (h : (c0, s) ∈ tbl) :
    ∃ s', (c0, s') ∈ markTerminal tbl c ∧
      s'.is_initial = s.is_initial ∧ s'.code = s.code := by
  unfold markTerminal
  by_cases hc : c0 = c
  · refine ⟨{ s with is_terminal := some true }, ?_, rfl, rfl⟩
    have h2 := List.mem_map_of_mem
      (fun p : α × State α =>
        if p.1 = c then (p.1, { p.2 with is_terminal := some true })
        else p) h
    simpa [hc] using h2
  · refine ⟨s, ?_, rfl, rfl⟩
    have h2 := List.mem_map_of_mem
      (fun p : α × State α =>
        if p.1 = c then (p.1, { p.2 with is_terminal := some true })
        else p) h
    simpa [hc] using h2

theorem markInitial_codes [DecidableEq α] {tbl : Table α} {c : α}
    (hinv : ∀ p ∈ tbl, (p.2).code = p.1) :
    ∀ p ∈ markInitial tbl c, (p.2).code = p.1 := by
  intro p hp
  unfold markInitial at hp
  obtain ⟨q, hq, hfq⟩ := List.mem_map.mp hp
  by_cases h : q.1 = c
  · rw [← hfq]
    simpa [h] using hinv q hq
  · rw [← hfq]
    simpa [h] using hinv q hq

theorem markTerminal_codes [DecidableEq α] {tbl : Table α} {c : α}
    (hinv : ∀ p ∈ tbl, (p.2).code = p.1) :
    ∀ p ∈ markTerminal tbl c, (p.2).code = p.1 := by
  intro p hp
  unfold markTerminal at hp
  obtain ⟨q, hq, hfq⟩ := List.mem_map.mp hp
  by_cases h : q.1 = c
  · rw [← hfq]
    simpa [h] using hinv q hq
  · rw [← hfq]
    simpa [h] using hinv q hq

theorem foldl_markTerminal_keys [DecidableEq α] (l : List (SC α))
    (tbl : Table α) :
    (l.foldl (fun acc v => markTerminal acc v.theCode) tbl).map Prod.fst =
      tbl.map Prod.fst := by
  induction l generalizing tbl with
  | nil => rfl
  | cons v rest ih =>
    rw [List.foldl_cons, ih, markTerminal_keys]

theorem foldl_markInitial_keys [DecidableEq α] (l : List (SC α))
    (tbl : Table α) :
    (l.foldl (fun acc v => markInitial acc v.theCode) tbl).map Prod.fst =
      tbl.map Prod.fst := by
  induction l generalizing tbl with
  | nil => rfl
  | cons v rest ih =>
    rw [List.foldl_cons, ih, markInitial_keys]

theorem foldl_markTerminal_preserves [DecidableEq α] (l : List (SC α))
    (tbl : Table α) {c0 : α} {s : State α} (h : (c0, s) ∈ tbl) :
    ∃ s', (c0, s') ∈ l.foldl (fun acc v => markTerminal acc v.theCode) tbl ∧
      s'.is_initial = s.is_initial ∧ s'.code = s.code := by
  induction l generalizing tbl s with
  | nil => exact ⟨s, h, rfl, rfl⟩
  | cons v rest ih =>
    rw [List.foldl_cons]
    obtain ⟨s1, h1, hi, hcode⟩ := markTerminal_preserves v.theCode h
    obtain ⟨s', h', hi', hcode'⟩ := ih _ h1
    exact ⟨s', h', by rw [hi', hi], by rw [hcode', hcode]⟩

theorem foldl_markTerminal_codes [DecidableEq α] (l : List (SC α))
    (tbl : Table α) (hinv : ∀ p ∈ tbl, (p.2).code = p.1) :
    ∀ p ∈ l.foldl (fun acc v => markTerminal acc v.theCode) tbl,
      (p.2).code = p.1 := by
  induction l generalizing tbl with
  | nil => exact hinv
  | cons v rest ih =>
    rw [List.foldl_cons]
    exact ih _ (markTerminal_codes hinv)

theorem foldl_markInitial_codes [DecidableEq α] (l : List (SC α))
    (tbl : Table α) (hinv : ∀ p ∈ tbl, (p.2).code = p.1) :
    ∀ p ∈ l.foldl (fun acc v => markInitial acc v.theCode) tbl,
      (p.2).code = p.1 := by
  induction l generalizing tbl with
  | nil => exact hinv
  | cons v rest ih =>
    rw [List.foldl_cons]
    exact ih _ (markInitial_codes hinv)

/-! ## Unfolding equations for statesOf -/

theorem statesOf_of_mergeErr [DecidableEq α] {t : Spec α σ} {m : MergeErr}
    (hm : mergeStates t = .error m) : statesOf t = .error m.toConfig := by
  unfold statesOf
  rw [hm]

theorem statesOf_of_mergeOk [DecidableEq α] {t : Spec α σ} {tbl0 : Table α}
    (hm : mergeStates t = .ok tbl0) :
    statesOf t = if (initialsChosen t tbl0).length ≠ 1 then
      .error initialsError else .ok (markAll t tbl0) := by
  unfold statesOf
  rw [hm]

theorem toState_code [DecidableEq α] (v : SC α) :
    (toState v).code = v.theCode := by
  cases v <;> rfl

theorem initInstance_of_ok [DecidableEq α] [DecidableEq σ]
    {d : SMDef α σ} {tbl : Table α}
    (hok : statesOf d.transitions = .ok tbl) :
    initInstance d =
      (match get_initial_state tbl with
       | none => .error .keyError
       | some s =>
         match lookupTable tbl s.code with
         | none => .error .keyError
         | some st => .ok ⟨some st.code⟩) := by
  unfold initInstance
  rw [hok]

/-! ## Claim C4 -/

/-- C4: during table construction, the explicitly `is_initial`-marked states
of the spec (if any) form the initial set, otherwise the initial candidates
are exactly the codes appearing as transition-spec keys but never as a
destination; and the construction fails with `ImproperlyConfigured` iff the
resulting initial set (explicit or deduced) does not have exactly one
element, or a metadata merge conflicts — and the error is always
`ImproperlyConfigured`, never the `ValueError` of inequal states. -/
theorem C4_initial_inference (α σ : Type) [DecidableEq α] [DecidableEq σ]
    (t : Spec α σ) :
    ((∃ e, statesOf t = .error e) ↔
      (∃ m, mergeStates t = .error m) ∨
      (∃ tbl, mergeStates t = .ok tbl ∧
        (initialsChosen t tbl).length ≠ 1)) ∧
    (∀ tbl, mergeStates t = .ok tbl → ∀ c,
      ((∃ s ∈ explicitInitials tbl, s.code = c) ↔
        (∃ st ∈ collectStates t, st.code = c ∧
          st.is_initial = some true))) ∧
    (∀ c, ((∃ v ∈ deduce_initial_states t, v.theCode = c) ↔
      ((∃ k ∈ specKeys t, k.theCode = c) ∧
        ¬ ∃ w ∈ right_side t, w.theCode = c))) ∧
    (∀ e, statesOf t = .error e → ∃ msg, e = .improperlyConfigured msg) := by
  have hinv_nil : ∀ p ∈ ([] : Table α), (p.2).code = p.1 := by
    intro p hp
    simp at hp
  refine ⟨?_, ?_, ?_, ?_⟩
  · cases hm : mergeStates t with
    | error m =>
      rw [statesOf_of_mergeErr hm]
      constructor
      · intro _
        exact Or.inl ⟨m, rfl⟩
      · intro _
        exact ⟨m.toConfig, rfl⟩
    | ok tbl0 =>
      rw [statesOf_of_mergeOk hm]
      by_cases hlen : (initialsChosen t tbl0).length ≠ 1
      · rw [if_pos hlen]
        constructor
        · intro _
          exact Or.inr ⟨tbl0, rfl, hlen⟩
        · intro _
          exact ⟨_, rfl⟩
      · rw [if_neg hlen]
        constructor
        · rintro ⟨e, he⟩
          simp at he
        · rintro (⟨m, hm2⟩ | ⟨tbl, htbl, hlen2⟩)
          · simp at hm2
          · simp only [Except.ok.injEq] at htbl
            subst htbl
            exact absurd hlen2 hlen
  · intro tbl hm c
    have hall : insertAll [] (collectStates t) = .ok tbl := hm
    have hcodes := insertAll_codes hinv_nil hall
    have hnd : (tbl.map Prod.fst).Nodup :=
      insertAll_nodup (by simp) hall
    constructor
    · rintro ⟨s, hs, hcode⟩
      obtain ⟨hsv, hst⟩ := List.mem_filter.mp hs
      have hini : s.is_initial = some true :=
        (truthy_iff _).mp hst
      obtain ⟨p, hp, hps⟩ := List.mem_map.mp hsv
      obtain ⟨c0, s2⟩ := p
      cases hps
      have hkey : s2.code = c0 := hcodes (c0, s2) hp
      have hlk : lookupTable tbl c0 = some s2 := mem_lookupTable hnd hp
      rcases insertAll_origin_initial hall c0 s2 hlk with ⟨s1, hl1, _⟩ | h2
      · simp [lookupTable] at hl1
      · obtain ⟨st, hst2, hstc, hsti⟩ := h2
        exact ⟨st, hst2, by rw [hstc, ← hkey, hcode],
          by rw [hsti, hini]⟩
    · rintro ⟨st, hst, hcode, hini⟩
      obtain ⟨s', hs', hi'⟩ :=
        insertAll_decl_initial hall st hst true hini
      have hmem : (st.code, s') ∈ tbl := lookupTable_mem hs'
      have hcode' : s'.code = st.code := hcodes (st.code, s') hmem
      refine ⟨s', List.mem_filter.mpr ⟨?_, (truthy_iff _).mpr hi'⟩,
        by rw [hcode', hcode]⟩
      exact List.mem_map.mpr ⟨(st.code, s'), hmem, rfl⟩
  · intro c
    unfold deduce_initial_states
    rw [dedupByCode_exists]
    constructor
    · rintro ⟨v, hv, hc⟩
      obtain ⟨hvk, hp⟩ := List.mem_filter.mp hv
      simp only [decide_eq_true_eq] at hp
      refine ⟨⟨v, hvk, hc⟩, ?_⟩
      rintro ⟨w, hw, hwc⟩
      exact hp (List.any_eq_true.mpr ⟨w, hw, by
        simp only [decide_eq_true_eq]
        rw [hwc, hc]⟩)
    · rintro ⟨⟨k, hk, hkc⟩, hnone⟩
      refine ⟨k, List.mem_filter.mpr ⟨hk, ?_⟩, hkc⟩
      simp only [decide_eq_true_eq]
      intro hany
      obtain ⟨w, hw, hwc⟩ := List.any_eq_true.mp hany
      simp only [decide_eq_true_eq] at hwc
      exact hnone ⟨w, hw, by rw [hwc, hkc]⟩
  · intro e he
    cases hm : mergeStates t with
    | error m =>
      rw [statesOf_of_mergeErr hm] at he
      simp only [Except.error.injEq] at he
      obtain ⟨a, ha⟩ := insertAll_error_name hinv_nil hm
      subst ha
      exact ⟨_, by rw [← he]; rfl⟩
    | ok tbl0 =>
      rw [statesOf_of_mergeOk hm] at he
      by_cases hlen : (initialsChosen t tbl0).length ≠ 1
      · rw [if_pos hlen] at he
        simp only [Except.error.injEq] at he
        exact ⟨_, he.symm⟩
      · rw [if_neg hlen] at he
        simp at he

/-- Witness for C4 (through the theorem at a concrete spec):
`{0: {"a": 1}, 2: {"b": 1}}` has two deduced initial candidates (`0` and
`2`), so table construction fails. -/
theorem C4_initial_inference_witness :
    ∃ e, statesOf ([(.code 0, [("a", .code 1)]),
      (.code 2, [("b", .code 1)])] : Spec Int String) = .error e :=
  (C4_initial_inference Int String _).1.mpr
    (Or.inr ⟨[(1, ⟨1, none, none, none⟩), (0, ⟨0, none, none, none⟩),
      (2, ⟨2, none, none, none⟩)], by rfl, by decide⟩)

/-! ## Claim C10 -/

/-- Inversion of a successful `transition`: the new instance stores the
canonical code of the table entry the `current_state` setter looked up. -/
theorem transition_success_inv (α σ : Type) [DecidableEq α] [DecidableEq σ]
    {d : SMDef α σ} {i : Instance α} {sym : σ} {i' : Instance α}
    {res : List (Handler α σ × Except String String)}
    {ev : List (Event α σ)}
    (h : transition d i sym = (i', .success res, ev)) :
    ∃ tbl' nx ns, statesOf d.transitions = .ok tbl' ∧
      lookupTable tbl' (SC.theCode nx) = some ns ∧
      i' = ⟨some ns.code⟩ := by
  unfold transition at h
  repeat' split at h
  all_goals simp at h
  obtain ⟨h1, _, _⟩ := h
  exact ⟨_, _, _, by assumption, by assumption, h1.symm⟩

/-- C10: whenever the state table builds successfully, `__init__` stores the
code of some table state in `current_state_code` (the `current_state` setter
normalizes through the table); every successful transition stores the
canonical code of the destination entry — again a table key; and on any instance
whose code is a table key the `current_state` query does not return
`None`. -/
theorem C10_current_state_code_in_table (α σ : Type) [DecidableEq α]
    [DecidableEq σ] (d : SMDef α σ) (tbl : Table α)
    (hok : statesOf d.transitions = .ok tbl) :
    (∃ c, initInstance d = .ok ⟨some c⟩ ∧ (lookupTable tbl c).isSome) ∧
    (∀ i sym i' res ev, transition d i sym = (i', .success res, ev) →
      ∃ c, i'.current_state_code = some c ∧
        (lookupTable tbl c).isSome) ∧
    (∀ i c, i.current_state_code = some c → (lookupTable tbl c).isSome →
      currentStateIn tbl i ≠ none) := by
  -- Unpack the successful construction.
  obtain ⟨tbl0, hm, hlen, htbl⟩ : ∃ tbl0,
      mergeStates d.transitions = .ok tbl0 ∧
      (initialsChosen d.transitions tbl0).length = 1 ∧
      tbl = markAll d.transitions tbl0 := by
    cases hm : mergeStates d.transitions with
    | error m =>
      rw [statesOf_of_mergeErr hm] at hok
      simp at hok
    | ok tbl0 =>
      rw [statesOf_of_mergeOk hm] at hok
      by_cases hlen : (initialsChosen d.transitions tbl0).length ≠ 1
      · rw [if_pos hlen] at hok
        simp at hok
      · rw [if_neg hlen] at hok
        simp only [Except.ok.injEq] at hok
        exact ⟨tbl0, rfl, by omega, hok.symm⟩
  have hinv_nil : ∀ p ∈ ([] : Table α), (p.2).code = p.1 := by
    intro p hp
    simp at hp
  have hall : insertAll [] (collectStates d.transitions) = .ok tbl0 := hm
  have hcodes0 : ∀ p ∈ tbl0, (p.2).code = p.1 :=
    insertAll_codes hinv_nil hall
  have hnd0 : (tbl0.map Prod.fst).Nodup := insertAll_nodup (by simp) hall
  have hkeys : tbl.map Prod.fst = tbl0.map Prod.fst := by
    rw [htbl]
    unfold markAll
    rw [foldl_markTerminal_keys, foldl_markInitial_keys]
  have hcodes : ∀ p ∈ tbl, (p.2).code = p.1 := by
    rw [htbl]
    unfold markAll
    exact foldl_markTerminal_codes _ _ (foldl_markInitial_codes _ _ hcodes0)
  have hnd : (tbl.map Prod.fst).Nodup := by
    rw [hkeys]
    exact hnd0
  -- There is an entry of `tbl` marked initial.
  have hmarked : ∃ cE s', (cE, s') ∈ tbl ∧ s'.is_initial = some true := by
    obtain ⟨v, hv⟩ := List.length_eq_one.mp hlen
    -- the code of the chosen initial is a key of `tbl0`
    have hventry : ∃ sE, (v.theCode, sE) ∈ tbl0 := by
      unfold initialsChosen at hv
      by_cases hexp : (explicitInitials tbl0).length = 0
      · rw [if_pos hexp] at hv
        have hvmem : v ∈ deduce_initial_states d.transitions := by
          rw [hv]
          exact List.mem_cons_self _ _
        have hvkey : v ∈ specKeys d.transitions :=
          (List.mem_filter.mp (dedupByCode_subset hvmem)).1
        have hcollect : toState v ∈ collectStates d.transitions := by
          unfold collectStates
          exact List.mem_map_of_mem _
            (List.mem_append.mpr (Or.inr hvkey))
        cases hl : lookupTable tbl0 v.theCode with
        | none =>
          exfalso
          have h2 := ((insertAll_lookup_none_iff hall v.theCode).mp hl).2
          exact h2 (toState v) hcollect (toState_code v)
        | some sE => exact ⟨sE, lookupTable_mem hl⟩
      · rw [if_neg hexp] at hv
        have hexp1 : (explicitInitials tbl0).length = 1 := by
          have := congrArg List.length hv
          simpa using this
        obtain ⟨s, hs⟩ := List.length_eq_one.mp hexp1
        have hvs : v = .state s := by
          rw [hs] at hv
          simpa using hv.symm
        have hsmem : s ∈ explicitInitials tbl0 := by
          rw [hs]
          exact List.mem_cons_self _ _
        unfold explicitInitials at hsmem
        have hsval : s ∈ values tbl0 := (List.mem_filter.mp hsmem).1
        obtain ⟨p, hp, hps⟩ := List.mem_map.mp hsval
        obtain ⟨c0, s2⟩ := p
        cases hps
        have : s2.code = c0 := hcodes0 (c0, s2) hp
        refine ⟨s2, ?_⟩
        rw [hvs]
        show (s2.code, s2) ∈ tbl0
        rw [this]
        exact hp
    obtain ⟨sE, hE⟩ := hventry
    have h1 : (v.theCode, { sE with is_initial := some true }) ∈
        (initialsChosen d.transitions tbl0).foldl
          (fun acc w => markInitial acc w.theCode) tbl0 := by
      rw [hv]
      simpa using markInitial_mem_self hE
    obtain ⟨s', h2, hi2, _⟩ := foldl_markTerminal_preserves
      (terminalsChosen d.transitions tbl0) _ h1
    refine ⟨v.theCode, s', ?_, by rw [hi2]⟩
    rw [htbl]
    exact h2
  obtain ⟨cE, sE', hEmem, hEini⟩ := hmarked
  refine ⟨?_, ?_, ?_⟩
  · -- initialization
    have hfind : (get_initial_state tbl).isSome := by
      unfold get_initial_state
      refine List.find?_isSome.mpr ⟨sE', ?_, ?_⟩
      · exact List.mem_map.mpr ⟨(cE, sE'), hEmem, rfl⟩
      · rw [(truthy_iff _)]
        exact hEini
    obtain ⟨sF, hsF⟩ := Option.isSome_iff_exists.mp hfind
    have hsFmem : sF ∈ values tbl := List.mem_of_find?_eq_some hsF
    obtain ⟨p, hp, hps⟩ := List.mem_map.mp hsFmem
    obtain ⟨cF, s3⟩ := p
    cases hps
    have hcF : s3.code = cF := hcodes (cF, s3) hp
    have hlkF : lookupTable tbl s3.code = some s3 := by
      rw [hcF]
      exact mem_lookupTable hnd hp
    refine ⟨s3.code, ?_, by rw [hlkF]; rfl⟩
    rw [initInstance_of_ok hok]
    simp only [hsF, hlkF]
  · -- preservation by successful transitions
    intro i sym i' res ev h
    obtain ⟨tbl', nx, ns, hok', hlk, hi'⟩ :=
      transition_success_inv α σ h
    rw [hok] at hok'
    simp only [Except.ok.injEq] at hok'
    subst hok'
    have hmem : (nx.theCode, ns) ∈ tbl := lookupTable_mem hlk
    have hns : ns.code = nx.theCode := hcodes (nx.theCode, ns) hmem
    refine ⟨ns.code, by rw [hi'], ?_⟩
    rw [hns, hlk]
    rfl
  · -- totality of the current_state query on in-table codes
    intro i c hc hsome
    obtain ⟨s, hs⟩ := Option.isSome_iff_exists.mp hsome
    simp [currentStateIn, hc, hs]

/-- Witness for C10 at the `{0: {"go": 1}}` machine: initialization lands on
a table key and a successful transition keeps the code in the table. -/
theorem C10_current_state_code_in_table_witness :
    (∃ c, initInstance dGo = .ok ⟨some c⟩ ∧
      (lookupTable tblGo c).isSome) ∧
    currentStateIn tblGo ⟨some 0⟩ ≠ none :=
  ⟨(C10_current_state_code_in_table Int String dGo tblGo (by rfl)).1,
   (C10_current_state_code_in_table Int String dGo tblGo (by rfl)).2.2
     ⟨some 0⟩ 0 rfl (by rfl)⟩

/-! ## Claim C8 -/

/-- C8: for every code `c`, `State(c) == c` and `c == State(c)` hold (and in
general equality between `State`s, or between a `State` and a bare code, holds
iff the codes are equal, symmetrically), and `hash(State(c)) == hash(c)`. -/
theorem C8_state_equality_and_hash (α : Type) [DecidableEq α] (h : α → Nat)
    (c : α) (lab : Option String) (ii it : Option Bool) :
    SC.pyEq (.state ⟨c, lab, ii, it⟩) (.code c) = true ∧
    SC.pyEq (.code c) (.state ⟨c, lab, ii, it⟩) = true ∧
    SC.pyHash h (.state ⟨c, lab, ii, it⟩) = SC.pyHash h (.code c) ∧
    (∀ a b : SC α, SC.pyEq a b = true ↔ a.theCode = b.theCode) ∧
    (∀ a b : SC α, SC.pyEq a b = SC.pyEq b a) := by
  refine ⟨by simp [SC.pyEq], by simp [SC.pyEq], rfl, SC.pyEq_iff_theCode, ?_⟩
  intro a b
  cases a <;> cases b <;> simp only [SC.pyEq, decide_eq_decide] <;>
    first
    | exact Iff.rfl
    | exact eq_comm

/-! ## Claim C6 -/

/-- C6: merging two state declarations fails with a `ValueError`-class error
when their codes differ; when the codes are equal, each of `label`,
`is_initial`, `is_terminal` fails with `ImproperlyConfigured` if both sides
hold differing non-null values, and otherwise the merged state carries the
non-null value (or null when both are null). -/
theorem C6_merge_data (α : Type) [DecidableEq α] (s t : State α) :
    (s.code ≠ t.code → s.merge_data t = .error .valueError) ∧
    (s.code = t.code →
      ((attrConflict s.label t.label ∨ attrConflict s.is_initial t.is_initial ∨
          attrConflict s.is_terminal t.is_terminal) →
        ∃ a, s.merge_data t = .error (.improperlyConfigured a)) ∧
      (¬ attrConflict s.label t.label →
        ¬ attrConflict s.is_initial t.is_initial →
        ¬ attrConflict s.is_terminal t.is_terminal →
        s.merge_data t = .ok
          { code := s.code, label := pick s.label t.label,
            is_initial := pick s.is_initial t.is_initial,
            is_terminal := pick s.is_terminal t.is_terminal })) := by
  constructor
  · intro hne
    rw [State.merge_data, if_pos hne]
  · intro hc
    constructor
    · intro hconf
      rw [State.merge_data, if_neg (by simp [hc])]
      by_cases h1 : attrConflict s.label t.label
      · exact ⟨"label", by rw [mergeAttr_of_conflict _ _ _ h1]⟩
      · rw [mergeAttr_of_no_conflict _ _ _ h1]
        by_cases h2 : attrConflict s.is_initial t.is_initial
        · exact ⟨"is_initial", by rw [mergeAttr_of_conflict _ _ _ h2]⟩
        · rw [mergeAttr_of_no_conflict _ _ _ h2]
          have h3 : attrConflict s.is_terminal t.is_terminal := by tauto
          exact ⟨"is_terminal", by rw [mergeAttr_of_conflict _ _ _ h3]⟩
    · intro h1 h2 h3
      rw [State.merge_data, if_neg (by simp [hc]),
        mergeAttr_of_no_conflict _ _ _ h1, mergeAttr_of_no_conflict _ _ _ h2,
        mergeAttr_of_no_conflict _ _ _ h3]

/-- Witness for C6 at concrete states: `State(7, label="a")` merged with
`State(7, is_terminal=True)` succeeds with the non-null values combined, and
merged with `State(7, label="b")` fails on the conflicting label. -/
theorem C6_merge_data_witness :
    State.merge_data (α := Int) ⟨7, some "a", none, none⟩
        ⟨7, none, none, some true⟩ =
      .ok ⟨7, some "a", none, some true⟩ ∧
    ∃ a, State.merge_data (α := Int) ⟨7, some "a", none, none⟩
        ⟨7, some "b", none, none⟩ = .error (.improperlyConfigured a) := by
  constructor
  · exact ((C6_merge_data Int ⟨7, some "a", none, none⟩
      ⟨7, none, none, some true⟩).2 rfl).2 (by decide) (by decide) (by decide)
  · exact ((C6_merge_data Int ⟨7, some "a", none, none⟩
      ⟨7, some "b", none, none⟩).2 rfl).1 (Or.inl (by decide))

/-! ## Claim C9 -/

/-- C9: for a machine instance whose `current_state_code` is not a key of the
state table, the `current_state` query returns `None` rather than raising:
the `KeyError` of the table lookup is swallowed. -/
theorem C9_missing_code_yields_none (α σ : Type) [DecidableEq α]
    [DecidableEq σ] (d : SMDef α σ) (tbl : Table α) (i : Instance α) (c : α)
    (hok : statesOf d.transitions = .ok tbl)
    (hc : i.current_state_code = some c)
    (hmiss : lookupTable tbl c = none) :
    currentStateIn tbl i = none := by
  simp [currentStateIn, hc, hmiss]

/-- Witness for C9: the machine `{0: {"go": 1}}` with a corrupted
`current_state_code = 5` answers `None` for `current_state`. -/
theorem C9_missing_code_yields_none_witness :
    currentStateIn tblGo ⟨some 5⟩ = none :=
  C9_missing_code_yields_none Int String dGo tblGo ⟨some 5⟩ 5 rfl rfl rfl

/-! ## Claim C5 -/

/-- C5: during dispatch every handler of every matching rule is invoked and
the pair `(handler, outcome)` — the returned value, or the caught exception —
is in the result list, independently of any other handler raising; the
result list is totally computed (`call_handlers` never propagates a handler
exception, and `transition` returns this list on success). -/
theorem C5_dispatch_records_every_matching_handler (α σ : Type)
    [DecidableEq α] [DecidableEq σ]
    (hd : HandlerDict α σ) (f : State α) (sy : σ) (t : SC α)
    (r : Rule α σ) (hs : List (Handler α σ)) (h : Handler α σ)
    (hmem : (r, hs) ∈ hd) (hmatch : ruleMatches r (.state f) sy t = true)
    (hh : h ∈ hs) :
    (h, h.run f sy t) ∈ call_handlers hd f sy t := by
  unfold call_handlers
  refine List.mem_flatMap.mpr ⟨(r, hs), hmem, ?_⟩
  simp only [hmatch, if_true]
  exact List.mem_map_of_mem _ hh

/-- Witness for C5: with a raising handler and a normal handler under the
same matching rule, both outcomes are recorded: the exception of the raising
handler and the value of the second handler. -/
theorem C5_dispatch_records_every_matching_handler_witness :
    (hFine, (Except.ok "done" : Except String String)) ∈
      call_handlers [(ruleAll, [hBoom, hFine])] ⟨0, none, none, none⟩ "go"
        (.code 1) ∧
    (hBoom, (Except.error "boom" : Except String String)) ∈
      call_handlers [(ruleAll, [hBoom, hFine])] ⟨0, none, none, none⟩ "go"
        (.code 1) := by
  constructor
  · exact C5_dispatch_records_every_matching_handler Int String
      [(ruleAll, [hBoom, hFine])] ⟨0, none, none, none⟩ "go" (.code 1)
      ruleAll [hBoom, hFine] hFine (by simp) rfl (by simp)
  · exact C5_dispatch_records_every_matching_handler Int String
      [(ruleAll, [hBoom, hFine])] ⟨0, none, none, none⟩ "go" (.code 1)
      ruleAll [hBoom, hFine] hBoom (by simp) rfl (by simp)

/-! ## Claim C3 -/

/-- C3: when `transition(symbol)` raises `IllegalTransition` — missing row
for the current state, missing symbol, or guard veto — the instance is
unchanged: no state mutation, no commit-hook call, no handler dispatch. -/
theorem C3_illegal_preserves_state (α σ : Type) [DecidableEq α]
    [DecidableEq σ] (d : SMDef α σ) (i : Instance α) (sym : σ)
    (i' : Instance α) (cur : Option (State α)) (s : σ)
    (ev : List (Event α σ))
    (h : transition d i sym = (i', .illegal cur s, ev)) :
    i' = i ∧ (∀ c, Event.setState c ∉ ev) ∧ Event.saveCall ∉ ev ∧
      Event.dispatch ∉ ev := by
  unfold transition at h
  repeat' split at h
  all_goals simp at h
  all_goals
    obtain ⟨h1, h2, h3⟩ := h
    subst h3
    exact ⟨h1.symm, by simp, by simp, by simp⟩

/-- Witness for C3: on `{0: {"go": 1}}` at state `0`, the undefined symbol
`"nope"` leaves the instance unchanged and produces no effect. -/
theorem C3_illegal_preserves_state_witness :
    (⟨some 0⟩ : Instance Int) = ⟨some 0⟩ ∧
    (∀ c, Event.setState c ∉ ([] : List (Event Int String))) ∧
    Event.saveCall ∉ ([] : List (Event Int String)) ∧
    Event.dispatch ∉ ([] : List (Event Int String)) :=
  C3_illegal_preserves_state Int String dGo ⟨some 0⟩ "nope" ⟨some 0⟩
    (some ⟨0, none, some true, none⟩) "nope" [] rfl

/-! ## Claim C7 -/

/-- C7: on every accepted transition `current_state_code` is updated to the
destination code before the commit hook runs (the effect trace places
`setState` before `saveCall`); a commit-hook failure propagates
(`saveError`) with the in-memory state left updated — no rollback — and no
dispatch; handler dispatch happens only after the commit hook returns
successfully. -/
theorem C7_mutation_before_commit (α σ : Type) [DecidableEq α]
    [DecidableEq σ] (d : SMDef α σ) (i : Instance α) (sym : σ)
    (tbl : Table α) (cur ns : State α) (nx : SC α)
    (hok : statesOf d.transitions = .ok tbl)
    (hcur : currentStateIn tbl i = some cur)
    (hnx : get_next d.transitions cur sym = some nx)
    (hguard : d.guard cur sym nx = true)
    (hns : lookupTable tbl nx.theCode = some ns) :
    (∀ e, d.saveResult = .error e →
      transition d i sym = (⟨some ns.code⟩, .saveError e,
        [.guardCall cur sym nx, .setState ns.code, .saveCall])) ∧
    (d.saveResult = .ok () →
      transition d i sym = (⟨some ns.code⟩,
        .success (call_handlers (get_handlers d.chain d.baseHandlers) cur
          sym nx),
        [.guardCall cur sym nx, .setState ns.code, .saveCall,
         .dispatch])) := by
  unfold transition
  rw [hok]
  simp only [hcur, hnx, hguard, if_true, hns]
  constructor
  · intro e he
    rw [he]
  · intro he
    rw [he]

/-- Witness for C7: on `{0: {"go": 1}}` with a failing commit hook, the
accepted transition `"go"` from state `0` leaves the instance at code `1`,
propagates the save failure, and never dispatches. -/
theorem C7_mutation_before_commit_witness :
    transition dGoBadSave ⟨some 0⟩ "go" =
      (⟨some 1⟩, .saveError "db down",
       [.guardCall ⟨0, none, some true, none⟩ "go" (.code 1),
        .setState 1, .saveCall]) :=
  (C7_mutation_before_commit Int String dGoBadSave ⟨some 0⟩ "go" tblGo
    ⟨0, none, some true, none⟩ ⟨1, none, none, some true⟩ (.code 1)
    (by rfl) (by rfl) (by rfl) (by rfl) (by rfl)).1 "db down" rfl

/-! ## Claim C2 -/

/-- C2 (amended): whenever `transition` reaches the guard, the
`allow_transition` call receives the current `State` object (from the state
table) as `from_state`, but as `next_state` it receives the destination value
exactly as the transition spec stores it — `get_next` returns the raw
configured value, so a bare code reaches the guard as a bare code. -/
theorem C2_guard_args (α σ : Type) [DecidableEq α] [DecidableEq σ]
    (d : SMDef α σ) (i : Instance α) (sym : σ) (tbl : Table α)
    (cur : State α) (nx : SC α)
    (hok : statesOf d.transitions = .ok tbl)
    (hcur : currentStateIn tbl i = some cur)
    (hnx : get_next d.transitions cur sym = some nx) :
    ((transition d i sym).2.2).head? = some (.guardCall cur sym nx) := by
  unfold transition
  rw [hok]
  simp only [hcur, hnx]
  by_cases hguard : d.guard cur sym nx = true
  · simp only [hguard, if_true]
    cases hlk : lookupTable tbl nx.theCode with
    | none => rfl
    | some ns =>
      cases hsv : d.saveResult with
      | error e => rfl
      | ok u => rfl
  · simp only [Bool.not_eq_true] at hguard
    simp only [hguard, Bool.false_eq_true, if_false]
    rfl

/-- C2 counterexample: on `{0: {"fail": 2}}` — destination given as a bare
code — the accepted transition `"fail"` calls the guard with `next_state`
being the bare code `2`, not a `State` instance. -/
theorem C2_guard_args_counterexample :
    ((transition dC2 ⟨some 0⟩ "fail").2.2).head? =
      some (.guardCall ⟨0, none, some true, none⟩ "fail" (.code 2)) ∧
    SC.isStateObj (SC.code (2 : Int)) = false := by
  constructor
  · rfl
  · rfl

/-- Witness for the amended C2 on the same machine, via the general
theorem. -/
theorem C2_guard_args_witness :
    ((transition dC2 ⟨some 0⟩ "fail").2.2).head? =
      some (.guardCall ⟨0, none, some true, none⟩ "fail" (.code 2)) :=
  C2_guard_args Int String dC2 ⟨some 0⟩ "fail"
    [(2, ⟨2, none, none, some true⟩), (0, ⟨0, none, some true, none⟩)]
    ⟨0, none, some true, none⟩ (.code 2) (by rfl) (by rfl) (by rfl)

/-! ## Claim C1 -/

/-- C1, evaluated at the failing input: the parent definition registered
`hParent` (id 1) under `from_state=0` and the subclass registered `hSub`
(id 2) under the all-wildcard rule; both rules match the transition
`0 --"go"--> 1` (first two conjuncts).  A parent instance dispatches
`hParent` (third conjunct), but the same transition on a subclass instance
invokes only `hSub` (fourth conjunct): `handle` created a fresh empty dict
on the subclass that shadows the dict of the parent, and the `super()`
branch of `get_handlers` never merges it back — `super()` inside the
classmethod is `super(StateMachine, cls)`, which resolves past
`StateMachine` where no `get_handlers` exists — contradicting the claimed
union (and the docstring of `get_handlers`). -/
theorem C1_subclass_drops_parent_handlers :
    ruleMatches ruleFrom0 (.state ⟨0, none, some true, none⟩) "go"
      (.code 1) = true ∧
    ruleMatches ruleAll (.state ⟨0, none, some true, none⟩) "go"
      (.code 1) = true ∧
    (transition dSuper ⟨some 0⟩ "go").2.1.resultIds = some [1] ∧
    (transition dSub ⟨some 0⟩ "go").2.1.resultIds = some [2] :=
  ⟨rfl, rfl, by rfl, by rfl⟩

end DjangoSM
